import Mathlib

/-!
Verification development for the OHLCV aggregator repository
(src/ohlcv_aggregator.py and src/check_data_consistency.py).

The Python code is shallowly embedded as follows.

* A stored table row (one OHLCV record) is a `Row`.  The SQLite REAL
  columns (open/high/low/close/volume) are carried as integers: no claim
  and no line of the embedded code ever computes with a price or volume
  value, they are only moved around, so the carrier type is irrelevant;
  timestamps are `Int` milliseconds as in the source.
* A raw row returned by an exchange adapter (`fetch_ohlcv`) is a
  `RawRow`: the five leading fields plus the list of trailing volume
  fields (`unix_ms, open_, high, low, close, *volume` in the source).
* A SQLite table is a `Table`: its column-name list (fixed by
  `__create_table`) and its list of rows in insertion order.  The
  PRIMARY KEY constraint on `unix_ms_close` is modelled inside
  `execute_insert`: an INSERT whose key already exists raises, and
  `__insert_tx` swallows that exception (`except: pass`), so the row
  list is returned unchanged.
* Fallible Python code (an expression that can raise an uncaught
  exception) is embedded with `Option`: `none` is the uncaught raise.
-/

/-- One stored OHLCV record, i.e. one row of a per-pair SQLite table:
columns (unix_ms_close, open, high, low, close, volume). -/
structure Row where
  unix_ms : Int
  open_ : Int
  high : Int
  low : Int
  close : Int
  volume : Int
deriving DecidableEq

/-- One raw OHLCV row as handed to `__add_ohlcv_row_sql`: the timestamp,
the four prices, and one or more trailing volume fields (`*volume` in the
Python destructuring). -/
structure RawRow where
  unix_ms : Int
  open_ : Int
  high : Int
  low : Int
  close : Int
  volumes : List Int
deriving DecidableEq

/-- A SQLite table: the column names fixed at CREATE TABLE time and the
stored rows in insertion order. -/
structure Table where
  columns : List String
  rows : List Row
deriving DecidableEq

/-- Column list of the CREATE TABLE statement in `__create_table`:
unix_ms_close INT PRIMARY KEY, open, high, low, close, volume. -/
def ohlcv_columns : List String :=
  ["unix_ms_close", "open", "high", "low", "close", "volume"]

/-- Embeds `__add_ohlcv_row_sql`: destructure the raw row as
`unix_ms, open_, high, low, close, *volume`; when two trailing volume
fields are present keep the first and drop the second (per the source
comment, the dropped second field is the base volume), otherwise take
`volume[0]`, which raises IndexError (`none`) when there is no trailing
field at all. -/
def add_ohlcv_row_sql (r : RawRow) : Option Row :=
  if r.volumes.length = 2 then
    match r.volumes with
    | v :: _ => some ⟨r.unix_ms, r.open_, r.high, r.low, r.close, v⟩
    | [] => none
  else
    match r.volumes with
    | v :: _ => some ⟨r.unix_ms, r.open_, r.high, r.low, r.close, v⟩
    | [] => none

/-- Embeds `__get_latest_unix_ms` on an existing table: the query
`SELECT unix_ms_close ... ORDER BY unix_ms_close DESC LIMIT 1` returns the
maximum stored timestamp, and `fetchone` yields `None` (`none`) when the
table is empty. -/
def get_latest_unix_ms (rows : List Row) : Option Int :=
  match rows.map Row.unix_ms with
  | [] => none
  | t :: ts => some (ts.foldl max t)

/-- The watermark as read at the top of `__insert_tx`:
`__get_latest_unix_ms` followed by `if not latest_unix_ms: latest_unix_ms = 0`.
(The Python truthiness coercion maps both `None` and `0` to `0`, which on
the `some` side is the identity.) -/
def watermark (rows : List Row) : Int :=
  match get_latest_unix_ms rows with
  | none => 0
  | some t => t

/-- Embeds one `cursor.execute` of the INSERT inside the transaction loop
of `__insert_tx`: `unix_ms_close` is the PRIMARY KEY, so an INSERT whose
key is already present raises, and the bare `except: pass` swallows it,
leaving the table unchanged; otherwise the row is appended. -/
def execute_insert (rows : List Row) (r : Row) : List Row :=
  if rows.any fun x => x.unix_ms = r.unix_ms then rows else rows ++ [r]

/-- Embeds the `sql_tx` construction loop of `__insert_tx` applied to the
already-filtered fresh rows: `__add_ohlcv_row_sql` is called on each row in
order, and an exception from it (a row with no volume field) propagates,
aborting the whole call before the transaction begins. -/
def build_sql_tx : List RawRow → Option (List Row)
  | [] => some []
  | r :: rest =>
    match add_ohlcv_row_sql r with
    | none => none
    | some row =>
      match build_sql_tx rest with
      | none => none
      | some rows => some (row :: rows)

/-- Embeds `__insert_tx` on an existing table: read the watermark, keep
only the raw rows whose timestamp strictly exceeds it, build the INSERT
statements, then execute them in one transaction with per-row exceptions
swallowed.  `none` is an uncaught exception (a fresh raw row with no
volume field), in which case nothing was inserted. -/
def insert_tx (rows : List Row) (ohlcv_data : List RawRow) : Option (List Row) :=
  let fresh := ohlcv_data.filter fun r => watermark rows < r.unix_ms
  match build_sql_tx fresh with
  | none => none
  | some parsed => some (parsed.foldl execute_insert rows)

/-- One anomaly reported by the consistency checker: the timestamp of the
current record and the raw gap `current - previous` that differed from the
expected period. -/
structure Anomaly where
  unix_ms : Int
  gap : Int
deriving DecidableEq

/-- The reporting loop of `check_period`: walk the timestamps with the
running previous value, emitting an anomaly whenever
`unix_ms - prev_unix_ms != period_ms`. -/
def check_period_aux (period : Int) : Int → List Int → List Anomaly
  | _, [] => []
  | prev, t :: rest =>
    if t - prev ≠ period then ⟨t, t - prev⟩ :: check_period_aux period t rest
    else check_period_aux period t rest

/-- Embeds `check_period`: seed `prev_unix_ms = all_unix_ms[0] - period_ms`
and walk the whole list.  On an empty list the seeding line raises
IndexError (`none`). -/
def check_period (all_unix_ms : List Int) (period_ms : Int) : Option (List Anomaly) :=
  match all_unix_ms with
  | [] => none
  | t0 :: _ => some (check_period_aux period_ms (t0 - period_ms) all_unix_ms)

/-- Insertion of one element into an ascending list, used to model the
`ORDER BY ... ASC` of the checker's SELECT. -/
def insert_sorted (x : Int) : List Int → List Int
  | [] => [x]
  | y :: ys => if x ≤ y then x :: y :: ys else y :: insert_sorted x ys

/-- Ascending sort, modelling `ORDER BY ... ASC`. -/
def sort_asc : List Int → List Int
  | [] => []
  | x :: xs => insert_sorted x (sort_asc xs)

/-- Embeds `get_all_unix_ms` of the checker: it SELECTs the column
`unix_close` in ascending order; if the table has no such column the query
raises, the exception is caught, and the function returns `None` (`none`). -/
def get_all_unix_ms (t : Table) : Option (List Int) :=
  if "unix_close" ∈ t.columns then some (sort_asc (t.rows.map Row.unix_ms))
  else none

/-- One iteration of `check_data_consistency` for a single table:
`get_all_unix_ms` followed by `check_period`.  When `get_all_unix_ms`
returns `None`, `check_period(None, ...)` raises TypeError at its first
line, so no anomaly is produced (`none`). -/
def check_table (t : Table) (period_ms : Int) : Option (List Anomaly) :=
  match get_all_unix_ms t with
  | none => none
  | some l => check_period l period_ms

/-- Written from the spec wording of the checker contract, for comparison
with `check_period`: pair every stored timestamp with its predecessor
(the first one with the synthetic seed `first - period`) and keep exactly
the pairs whose difference is not the expected period. -/
def check_period_spec (l : List Int) (period_ms : Int) : Option (List Anomaly) :=
  match l with
  | [] => none
  | t0 :: _ =>
    some ((l.zip ((t0 - period_ms) :: l)).filterMap fun cp =>
      if cp.1 - cp.2 ≠ period_ms then some ⟨cp.1, cp.1 - cp.2⟩ else none)

theorem check_period_aux_zip (period : Int) :
    ∀ (ts : List Int) (prev : Int),
      check_period_aux period prev ts =
        (ts.zip (prev :: ts)).filterMap fun cp =>
          if cp.1 - cp.2 ≠ period then some ⟨cp.1, cp.1 - cp.2⟩ else none := by
  intro ts
  induction ts with
  | nil => intro prev; rfl
  | cons t rest ih =>
    intro prev
    by_cases hc : t - prev ≠ period
    · simp only [check_period_aux, if_pos hc, List.zip_cons_cons,
        List.filterMap_cons, ih]
    · simp only [check_period_aux, if_neg hc, List.zip_cons_cons,
        List.filterMap_cons, ih]

/-- C8: for every raw row carrying two trailing volume fields, the stored
record keeps the first trailing field and drops the second.  Per the
source comment on `__add_ohlcv_row_sql` ("in case base and quote volumes
are given, disregard base"), the dropped second field is the
base-denominated volume and the retained first field is the
quote-denominated volume, which becomes the record's volume column. -/
theorem c8_two_volumes_keep_quote_drop_base
    (ts o hi lo cl vQuote vBase : Int) :
    add_ohlcv_row_sql ⟨ts, o, hi, lo, cl, [vQuote, vBase]⟩ =
      some ⟨ts, o, hi, lo, cl, vQuote⟩ := rfl

/-- C5, counterexample to the claim's concrete examples: on the stored
timestamps [1000, 1060000, 1120000] with expected period 60000 the code
reports one anomaly (at 1060000 with gap 1059000), not zero, and on
[1000, 1180000] it reports the anomaly at 1180000 with gap 1179000, not
120000. -/
theorem c5_counterexample :
    check_period [1000, 1060000, 1120000] 60000 = some [⟨1060000, 1059000⟩] ∧
    check_period [1000, 1180000] 60000 = some [⟨1180000, 1179000⟩] ∧
    ¬ (check_period [1000, 1060000, 1120000] 60000 = some []) ∧
    ¬ (check_period [1000, 1180000] 60000 = some [⟨1180000, 120000⟩]) := by
  decide

/-- C5 (amended): the consistency check seeds the previous timestamp at
`first_timestamp - expected_period_ms` and emits an anomaly for a
consecutive pair exactly when `current - previous` differs from the
expected period (stated as equality with the spec-side pairing
`check_period_spec`); on the stored timestamps [1000000, 1060000, 1120000]
with expected period 60000 it reports zero anomalies, and on
[1060000, 1180000] it reports exactly one anomaly at timestamp 1180000
with gap 120000. -/
theorem c5_check_period_pairs :
    (∀ (l : List Int) (p : Int), check_period l p = check_period_spec l p) ∧
    check_period [1000000, 1060000, 1120000] 60000 = some [] ∧
    check_period [1060000, 1180000] 60000 = some [⟨1180000, 120000⟩] := by
  refine ⟨?_, by decide, by decide⟩
  intro l p
  cases l with
  | nil => rfl
  | cons t0 rest =>
    simp only [check_period, check_period_spec]
    rw [check_period_aux_zip]

/-- C6: the code crashes on an empty series instead of reporting no
anomalies.  `check_period` on an empty timestamp list is `none` (the
seeding line `all_unix_ms[0] - period_ms` raises IndexError), and a whole
checker pass over an empty table is `none` as well, both for a table whose
column really is `unix_close` and for a table created by the aggregator
(where `get_all_unix_ms` already returns `None` and
`check_period(None, ...)` raises TypeError). -/
theorem c6_empty_series_crashes :
    check_period ([] : List Int) 60000 = none ∧
    check_table ⟨["unix_close"], []⟩ 60000 = none ∧
    check_table ⟨ohlcv_columns, []⟩ 60000 = none := by
  decide

theorem le_foldl_max (l : List Int) (a b : Int) (hab : a ≤ b) :
    a ≤ l.foldl max b := by
  induction l generalizing b with
  | nil => simpa using hab
  | cons x xs ih => exact ih (max b x) (le_trans hab (le_max_left b x))

theorem mem_le_foldl_max (l : List Int) (a b : Int) (ha : a ∈ l) :
    a ≤ l.foldl max b := by
  induction l generalizing b with
  | nil => cases ha
  | cons x xs ih =>
    rcases List.mem_cons.mp ha with h1 | h2
    · subst h1
      exact le_foldl_max xs a (max b a) (le_max_right b a)
    · exact ih (max b x) h2

theorem foldl_max_mem (l : List Int) (b : Int) : l.foldl max b ∈ b :: l := by
  induction l generalizing b with
  | nil => simp [List.foldl]
  | cons x xs ih =>
    have h := ih (max b x)
    rcases List.mem_cons.mp h with h1 | h2
    · rcases max_choice b x with hb | hx
      · exact List.mem_cons.mpr (Or.inl (by rw [List.foldl, h1, hb]))
      · refine List.mem_cons.mpr (Or.inr (List.mem_cons.mpr (Or.inl ?_)))
        rw [List.foldl, h1, hx]
    · exact List.mem_cons.mpr (Or.inr (List.mem_cons.mpr (Or.inr (by
        rw [List.foldl]; exact h2))))

theorem ts_le_watermark (rows : List Row) (r : Row) (hr : r ∈ rows) :
    r.unix_ms ≤ watermark rows := by
  cases rows with
  | nil => cases hr
  | cons x xs =>
    show r.unix_ms ≤ watermark (x :: xs)
    rcases List.mem_cons.mp hr with h1 | h2
    · subst h1
      exact le_foldl_max (xs.map Row.unix_ms) r.unix_ms r.unix_ms le_rfl
    · exact mem_le_foldl_max (xs.map Row.unix_ms) r.unix_ms x.unix_ms
        (List.mem_map_of_mem Row.unix_ms h2)

theorem watermark_mem (rows : List Row) (h : rows ≠ []) :
    watermark rows ∈ rows.map Row.unix_ms := by
  cases rows with
  | nil => exact absurd rfl h
  | cons x xs =>
    show (xs.map Row.unix_ms).foldl max x.unix_ms ∈
      x.unix_ms :: xs.map Row.unix_ms
    exact foldl_max_mem (xs.map Row.unix_ms) x.unix_ms

theorem add_ohlcv_row_sql_cons (r : RawRow) (v : Int) (rest : List Int)
    (h : r.volumes = v :: rest) :
    add_ohlcv_row_sql r =
      some ⟨r.unix_ms, r.open_, r.high, r.low, r.close, v⟩ := by
  unfold add_ohlcv_row_sql
  rw [h]
  split <;> rfl

theorem add_ohlcv_row_sql_ts (r : RawRow) (row : Row)
    (h : add_ohlcv_row_sql r = some row) : row.unix_ms = r.unix_ms := by
  cases hv : r.volumes with
  | nil =>
    unfold add_ohlcv_row_sql at h
    rw [hv] at h
    split at h <;> cases h
  | cons v rest =>
    rw [add_ohlcv_row_sql_cons r v rest hv] at h
    cases h
    rfl

theorem build_sql_tx_ts (data : List RawRow) (parsed : List Row)
    (h : build_sql_tx data = some parsed) :
    parsed.map Row.unix_ms = data.map RawRow.unix_ms := by
  induction data generalizing parsed with
  | nil =>
    cases h
    rfl
  | cons r rest ih =>
    unfold build_sql_tx at h
    cases hadd : add_ohlcv_row_sql r with
    | none => rw [hadd] at h; cases h
    | some row =>
      rw [hadd] at h
      cases hb : build_sql_tx rest with
      | none => rw [hb] at h; cases h
      | some rows =>
        rw [hb] at h
        cases h
        simp only [List.map_cons]
        rw [add_ohlcv_row_sql_ts r row hadd, ih rows hb]

theorem build_sql_tx_total (data : List RawRow)
    (h : ∀ r ∈ data, r.volumes ≠ []) :
    ∃ parsed, build_sql_tx data = some parsed ∧
      parsed.map Row.unix_ms = data.map RawRow.unix_ms := by
  induction data with
  | nil => exact ⟨[], rfl, rfl⟩
  | cons r rest ih =>
    obtain ⟨ps, hb, hts⟩ := ih fun x hx => h x (List.mem_cons_of_mem r hx)
    cases hv : r.volumes with
    | nil => exact absurd hv (h r (List.mem_cons_self r rest))
    | cons v vs =>
      refine ⟨⟨r.unix_ms, r.open_, r.high, r.low, r.close, v⟩ :: ps, ?_, ?_⟩
      · unfold build_sql_tx
        rw [add_ohlcv_row_sql_cons r v vs hv, hb]
      · simp only [List.map_cons, hts]

theorem foldl_execute_insert_append (parsed : List Row) :
    ∀ rows, ∃ new, parsed.foldl execute_insert rows = rows ++ new ∧
      ∀ r ∈ new, r ∈ parsed := by
  induction parsed with
  | nil => exact fun rows => ⟨[], by simp, by simp⟩
  | cons x xs ih =>
    intro rows
    obtain ⟨new, hfold, hmem⟩ := ih (execute_insert rows x)
    simp only [List.foldl_cons]
    by_cases hc : (rows.any fun y => y.unix_ms = x.unix_ms) = true
    · have he : execute_insert rows x = rows := by
        rw [execute_insert, if_pos hc]
      refine ⟨new, ?_, fun r hr => List.mem_cons_of_mem x (hmem r hr)⟩
      rw [hfold, he]
    · have he : execute_insert rows x = rows ++ [x] := by
        rw [execute_insert, if_neg hc]
      refine ⟨x :: new,
        by rw [hfold, he, List.append_assoc, List.singleton_append], ?_⟩
      intro r hr
      rcases List.mem_cons.mp hr with h1 | h2
      · exact h1 ▸ List.mem_cons_self x xs
      · exact List.mem_cons_of_mem x (hmem r h2)

theorem mem_ts_foldl_execute_insert (parsed rows : List Row) (t : Int)
    (h : t ∈ rows.map Row.unix_ms) :
    t ∈ (parsed.foldl execute_insert rows).map Row.unix_ms := by
  obtain ⟨new, hfold, -⟩ := foldl_execute_insert_append parsed rows
  rw [hfold, List.map_append]
  exact List.mem_append_left _ h

theorem ts_mem_foldl_execute_insert (parsed : List Row) (r : Row)
    (h : r ∈ parsed) :
    ∀ rows, r.unix_ms ∈ (parsed.foldl execute_insert rows).map Row.unix_ms := by
  induction parsed with
  | nil => cases h
  | cons x xs ih =>
    intro rows
    simp only [List.foldl_cons]
    rcases List.mem_cons.mp h with h1 | h2
    · subst h1
      apply mem_ts_foldl_execute_insert xs (execute_insert rows r)
      by_cases hc : (rows.any fun y => y.unix_ms = r.unix_ms) = true
      · rw [execute_insert, if_pos hc]
        obtain ⟨y, hy, hyt⟩ := List.any_eq_true.mp hc
        have hyr : r.unix_ms = y.unix_ms := (of_decide_eq_true hyt).symm
        rw [hyr]
        exact List.mem_map_of_mem Row.unix_ms hy
      · rw [execute_insert, if_neg hc, List.map_append]
        exact List.mem_append_right _ (by simp)
    · exact ih h2 (execute_insert rows x)

theorem execute_insert_nodup (rows : List Row) (r : Row)
    (h : (rows.map Row.unix_ms).Nodup) :
    ((execute_insert rows r).map Row.unix_ms).Nodup := by
  rw [execute_insert]
  by_cases hc : (rows.any fun y => y.unix_ms = r.unix_ms) = true
  · rwa [if_pos hc]
  · rw [if_neg hc, List.map_append]
    have hnot : r.unix_ms ∉ rows.map Row.unix_ms := by
      intro hmem
      obtain ⟨y, hy, hyt⟩ := List.mem_map.mp hmem
      exact hc (List.any_eq_true.mpr ⟨y, hy, decide_eq_true hyt⟩)
    simp only [List.map_cons, List.map_nil]
    exact List.Nodup.append h (List.nodup_singleton r.unix_ms)
      (by simpa [List.disjoint_singleton] using hnot)

theorem foldl_execute_insert_nodup (parsed : List Row) :
    ∀ rows, (rows.map Row.unix_ms).Nodup →
      ((parsed.foldl execute_insert rows).map Row.unix_ms).Nodup := by
  induction parsed with
  | nil => exact fun rows h => h
  | cons x xs ih =>
    intro rows h
    simp only [List.foldl_cons]
    exact ih (execute_insert rows x) (execute_insert_nodup rows x h)

theorem foldl_execute_insert_all_fresh (parsed : List Row) :
    ∀ rows, (parsed.map Row.unix_ms).Nodup →
      (∀ r ∈ parsed, r.unix_ms ∉ rows.map Row.unix_ms) →
      parsed.foldl execute_insert rows = rows ++ parsed := by
  induction parsed with
  | nil => simp
  | cons x xs ih =>
    intro rows hnd hdis
    have hc : ¬ (rows.any fun y => y.unix_ms = x.unix_ms) = true := by
      intro hc
      obtain ⟨y, hy, hyt⟩ := List.any_eq_true.mp hc
      exact hdis x (List.mem_cons_self x xs)
        (List.mem_map.mpr ⟨y, hy, of_decide_eq_true hyt⟩)
    have he : execute_insert rows x = rows ++ [x] := by
      rw [execute_insert, if_neg hc]
    have hnd2 : (xs.map Row.unix_ms).Nodup :=
      (List.nodup_cons.mp (by simpa using hnd)).2
    have hx : x.unix_ms ∉ xs.map Row.unix_ms :=
      (List.nodup_cons.mp (by simpa using hnd)).1
    have hdis2 : ∀ r ∈ xs, r.unix_ms ∉ (rows ++ [x]).map Row.unix_ms := by
      intro r hr hmem
      rw [List.map_append] at hmem
      rcases List.mem_append.mp hmem with hl | hrr
      · exact hdis r (List.mem_cons_of_mem x hr) hl
      · have : r.unix_ms = x.unix_ms := by simpa using hrr
        exact hx (this ▸ List.mem_map_of_mem Row.unix_ms hr)
    simp only [List.foldl_cons]
    rw [he, ih (rows ++ [x]) hnd2 hdis2, List.append_assoc,
      List.singleton_append]

theorem insert_tx_cases (rows : List Row) (data : List RawRow)
    (rows2 : List Row) (h : insert_tx rows data = some rows2) :
    ∃ parsed,
      build_sql_tx (data.filter fun r => watermark rows < r.unix_ms) =
        some parsed ∧
      parsed.map Row.unix_ms =
        (data.filter fun r => watermark rows < r.unix_ms).map RawRow.unix_ms ∧
      rows2 = parsed.foldl execute_insert rows := by
  rw [insert_tx] at h
  cases hb : build_sql_tx (data.filter fun r => watermark rows < r.unix_ms) with
  | none => rw [hb] at h; cases h
  | some parsed =>
    rw [hb] at h
    cases h
    exact ⟨parsed, rfl, build_sql_tx_ts _ parsed hb, rfl⟩

theorem filter_fresh_ts_gt (rows : List Row) (data : List RawRow) (t : Int)
    (h : t ∈ (data.filter fun r => watermark rows < r.unix_ms).map RawRow.unix_ms) :
    watermark rows < t := by
  obtain ⟨d, hd, hdt⟩ := List.mem_map.mp h
  have := (List.mem_filter.mp hd).2
  exact hdt ▸ of_decide_eq_true this

/-- C1: `append_batch` (the `__insert_tx` transaction) inserts exactly the
records of the batch whose timestamp strictly exceeds the watermark read
at the start of the call, for any batch of well-formed records (each with
at least one volume field and pairwise distinct timestamps) in any
timestamp order: the table afterwards is the old table followed by
precisely the normalized fresh records, in batch order. -/
theorem c1_insert_tx_filters_by_watermark (rows : List Row)
    (data : List RawRow)
    (hvol : ∀ r ∈ data, r.volumes ≠ [])
    (hnodup : (data.map RawRow.unix_ms).Nodup) :
    ∃ inserted,
      insert_tx rows data = some (rows ++ inserted) ∧
      inserted.map Row.unix_ms =
        (data.filter fun r => watermark rows < r.unix_ms).map RawRow.unix_ms := by
  obtain ⟨parsed, hb, hts⟩ :=
    build_sql_tx_total (data.filter fun r => watermark rows < r.unix_ms)
      (fun r hr => hvol r (List.mem_filter.mp hr).1)
  have hnd : (parsed.map Row.unix_ms).Nodup := by
    rw [hts]
    exact List.Nodup.sublist
      (List.Sublist.map RawRow.unix_ms (List.filter_sublist data)) hnodup
  have hdis : ∀ r ∈ parsed, r.unix_ms ∉ rows.map Row.unix_ms := by
    intro r hr hmem
    have hgt : watermark rows < r.unix_ms := by
      apply filter_fresh_ts_gt rows data
      rw [← hts]
      exact List.mem_map_of_mem Row.unix_ms hr
    obtain ⟨y, hy, hyt⟩ := List.mem_map.mp hmem
    have := ts_le_watermark rows y hy
    omega
  refine ⟨parsed, ?_, hts⟩
  rw [insert_tx, hb]
  show some (parsed.foldl execute_insert rows) = some (rows ++ parsed)
  rw [foldl_execute_insert_all_fresh parsed rows hnd hdis]

/-- Witness for C1 at the claim's concrete input: a table whose watermark
is 1000 and a batch with timestamps [900, 1000, 1060, 1120]; exactly
[1060, 1120] are inserted. -/
def ex_rows : List Row := [⟨1000, 0, 0, 0, 0, 0⟩]

def ex_batch : List RawRow :=
  [⟨900, 0, 0, 0, 0, [1]⟩, ⟨1000, 0, 0, 0, 0, [1]⟩,
   ⟨1060, 0, 0, 0, 0, [1]⟩, ⟨1120, 0, 0, 0, 0, [1]⟩]

theorem c1_witness :
    ∃ inserted,
      insert_tx ex_rows ex_batch = some (ex_rows ++ inserted) ∧
      inserted.map Row.unix_ms = [1060, 1120] := by
  obtain ⟨inserted, h1, h2⟩ :=
    c1_insert_tx_filters_by_watermark ex_rows ex_batch (by decide) (by decide)
  refine ⟨inserted, h1, ?_⟩
  rw [h2]
  decide

theorem filter_eq_nil_all_false {α : Type} (p : α → Bool) :
    ∀ l : List α, (∀ a ∈ l, p a = false) → l.filter p = [] := by
  intro l
  induction l with
  | nil => intro hf; rfl
  | cons x xs ih =>
    intro hf
    have hx := hf x (List.mem_cons_self x xs)
    simp only [List.filter_cons, hx, Bool.false_eq_true, if_false]
    exact ih fun a ha => hf a (List.mem_cons_of_mem x ha)

theorem watermark_le_append (rows new : List Row)
    (hnew : ∀ r ∈ new, watermark rows < r.unix_ms) :
    watermark rows ≤ watermark (rows ++ new) := by
  cases rows with
  | nil =>
    cases new with
    | nil => exact le_refl _
    | cons y ys =>
      have hm := watermark_mem ([] ++ y :: ys) (by simp)
      obtain ⟨r, hr, hrt⟩ := List.mem_map.mp hm
      have hgt := hnew r (by simpa using hr)
      omega
  | cons x xs =>
    have hm := watermark_mem (x :: xs) (by simp)
    obtain ⟨r, hr, hrt⟩ := List.mem_map.mp hm
    have h2 := ts_le_watermark ((x :: xs) ++ new) r (List.mem_append_left _ hr)
    omega

theorem insert_tx_decomp (rows : List Row) (data : List RawRow)
    (rows2 : List Row) (h : insert_tx rows data = some rows2) :
    ∃ new, rows2 = rows ++ new ∧
      (∀ r ∈ new, watermark rows < r.unix_ms) ∧
      (∀ d ∈ data, d.unix_ms ≤ watermark rows2) := by
  obtain ⟨parsed, hb, hts, heq⟩ := insert_tx_cases rows data rows2 h
  obtain ⟨new, hfold, hmem⟩ := foldl_execute_insert_append parsed rows
  have hnew : ∀ r ∈ new, watermark rows < r.unix_ms := by
    intro r hr
    apply filter_fresh_ts_gt rows data
    rw [← hts]
    exact List.mem_map_of_mem Row.unix_ms (hmem r hr)
  have happ : rows2 = rows ++ new := heq.trans hfold
  have hmono : watermark rows ≤ watermark rows2 := by
    rw [happ]
    exact watermark_le_append rows new hnew
  refine ⟨new, happ, hnew, ?_⟩
  intro d hd
  by_cases hgt : watermark rows < d.unix_ms
  · have hdf : d ∈ data.filter fun r => watermark rows < r.unix_ms :=
      List.mem_filter.mpr ⟨hd, decide_eq_true hgt⟩
    have hdm : d.unix_ms ∈ parsed.map Row.unix_ms := by
      rw [hts]
      exact List.mem_map_of_mem RawRow.unix_ms hdf
    obtain ⟨p, hp, hpt⟩ := List.mem_map.mp hdm
    have hmem2 := ts_mem_foldl_execute_insert parsed p hp rows
    rw [← heq] at hmem2
    obtain ⟨q, hq, hqt⟩ := List.mem_map.mp hmem2
    have hle := ts_le_watermark rows2 q hq
    omega
  · push_neg at hgt
    omega

/-- C2: ingestion is idempotent.  If `append_batch` (the `__insert_tx`
transaction) applied to any store state and any batch succeeds and
produces the stored series `rows2`, then applying it again with the very
same batch leaves the stored series exactly `rows2`: every timestamp of
the batch is now at or below the watermark, so the filter keeps nothing
and no row is inserted. -/
theorem c2_insert_tx_idempotent (rows rows2 : List Row) (data : List RawRow)
    (h : insert_tx rows data = some rows2) :
    insert_tx rows2 data = some rows2 := by
  obtain ⟨new, happ, hnew, hub⟩ := insert_tx_decomp rows data rows2 h
  have hfil : (data.filter fun r => watermark rows2 < r.unix_ms) = [] := by
    apply filter_eq_nil_all_false
    intro d hd
    exact decide_eq_false (not_lt.mpr (hub d hd))
  rw [insert_tx, hfil]
  rfl

/-- Witness for C2: applying `__insert_tx` to the result of the C1 witness
call with the same batch returns that result unchanged. -/
def ex_rows2 : List Row :=
  [⟨1000, 0, 0, 0, 0, 0⟩, ⟨1060, 0, 0, 0, 0, 1⟩, ⟨1120, 0, 0, 0, 0, 1⟩]

theorem c2_witness : insert_tx ex_rows2 ex_batch = some ex_rows2 :=
  c2_insert_tx_idempotent ex_rows ex_rows2 ex_batch (by decide)

/-- A sequence of `append_batch` calls on one series, starting from the
empty table created by `__create_table`: the state threaded through
successive `__insert_tx` calls.  `none` means some call raised. -/
def run_batches_from (rows : List Row) : List (List RawRow) → Option (List Row)
  | [] => some rows
  | b :: bs =>
    match insert_tx rows b with
    | none => none
    | some rows2 => run_batches_from rows2 bs

/-- A whole ingestion history of one series from its creation. -/
def run_batches (bs : List (List RawRow)) : Option (List Row) :=
  run_batches_from [] bs

/-- All stored timestamps are positive: the invariant of every table
reachable from empty, since only timestamps strictly above the (initially
zero) watermark are ever inserted. -/
def all_pos (rows : List Row) : Prop := ∀ r ∈ rows, 0 < r.unix_ms

theorem watermark_nonneg (rows : List Row) (h : all_pos rows) :
    0 ≤ watermark rows := by
  cases rows with
  | nil => exact le_refl 0
  | cons x xs =>
    have hm := watermark_mem (x :: xs) (List.cons_ne_nil x xs)
    obtain ⟨r, hmem, hrt⟩ := List.mem_map.mp hm
    have := h r hmem
    omega

theorem insert_tx_all_pos (rows rows2 : List Row) (data : List RawRow)
    (hp : all_pos rows) (h : insert_tx rows data = some rows2) :
    all_pos rows2 := by
  obtain ⟨new, happ, hnew, -⟩ := insert_tx_decomp rows data rows2 h
  have hw := watermark_nonneg rows hp
  intro r hr
  rw [happ] at hr
  rcases List.mem_append.mp hr with hl | hn
  · exact hp r hl
  · have := hnew r hn
    omega

theorem run_batches_from_all_pos :
    ∀ (bs : List (List RawRow)) (rows rows2 : List Row), all_pos rows →
      run_batches_from rows bs = some rows2 → all_pos rows2 := by
  intro bs
  induction bs with
  | nil =>
    intro rows rows2 hp h
    cases h
    exact hp
  | cons b rest ih =>
    intro rows rows2 hp h
    rw [run_batches_from] at h
    cases hi : insert_tx rows b with
    | none => rw [hi] at h; cases h
    | some mid =>
      rw [hi] at h
      exact ih mid rows2 (insert_tx_all_pos rows mid b hp hi) h

theorem watermark_eq_foldl_max_zero (rows : List Row) (hp : all_pos rows) :
    watermark rows = (rows.map Row.unix_ms).foldl max 0 := by
  cases rows with
  | nil => rfl
  | cons x xs =>
    show (xs.map Row.unix_ms).foldl max x.unix_ms =
      (xs.map Row.unix_ms).foldl max (max 0 x.unix_ms)
    rw [max_eq_right (le_of_lt (hp x (List.mem_cons_self x xs)))]

/-- C3: for every series reachable by an ingestion history from its
creation and every further successful `append_batch` call, the watermark
after the call is at least the watermark before it; the call only appends
(the store never rewrites or deletes a record, so the final table rows2
lists exactly the records ever successfully appended to the series); and
the watermark after the call equals the maximum timestamp over those
ever-appended records (with maximum taken as 0 when there are none). -/
theorem c3_watermark_monotone_eq_max (bs : List (List RawRow))
    (data : List RawRow) (rows rows2 : List Row)
    (h1 : run_batches bs = some rows)
    (h2 : insert_tx rows data = some rows2) :
    watermark rows ≤ watermark rows2 ∧
    (∃ appended, rows2 = rows ++ appended) ∧
    watermark rows2 = (rows2.map Row.unix_ms).foldl max 0 := by
  obtain ⟨new, happ, hnew, -⟩ := insert_tx_decomp rows data rows2 h2
  have hp : all_pos rows :=
    run_batches_from_all_pos bs [] rows (fun r hr => absurd hr (List.not_mem_nil r)) h1
  have hp2 : all_pos rows2 := insert_tx_all_pos rows rows2 data hp h2
  refine ⟨?_, ⟨new, happ⟩, watermark_eq_foldl_max_zero rows2 hp2⟩
  rw [happ]
  exact watermark_le_append rows new hnew

/-- Witness for C3: a one-batch history storing timestamp 1000, then a
successful call appending timestamp 1060. -/
def c3_rows0 : List Row := [⟨1000, 0, 0, 0, 0, 1⟩]

def c3_rows1 : List Row := [⟨1000, 0, 0, 0, 0, 1⟩, ⟨1060, 0, 0, 0, 0, 1⟩]

theorem c3_witness :
    watermark c3_rows0 ≤ watermark c3_rows1 ∧
    (∃ appended, c3_rows1 = c3_rows0 ++ appended) ∧
    watermark c3_rows1 = (c3_rows1.map Row.unix_ms).foldl max 0 :=
  c3_watermark_monotone_eq_max [[⟨1000, 0, 0, 0, 0, [1]⟩]]
    [⟨1060, 0, 0, 0, 0, [1]⟩] c3_rows0 c3_rows1 (by decide) (by decide)

theorem insert_tx_nodup (rows rows2 : List Row) (data : List RawRow)
    (hnd : (rows.map Row.unix_ms).Nodup) (h : insert_tx rows data = some rows2) :
    (rows2.map Row.unix_ms).Nodup := by
  obtain ⟨parsed, -, -, heq⟩ := insert_tx_cases rows data rows2 h
  rw [heq]
  exact foldl_execute_insert_nodup parsed rows hnd

/-- Embeds `__create_table` on one series: CREATE TABLE IF NOT EXISTS is a
no-op on an existing table and otherwise creates an empty table with the
fixed column list. -/
def create_table : Option Table → Table
  | none => ⟨ohlcv_columns, []⟩
  | some tb => tb

/-- One ingestion operation on a single series, as issued by the engine:
a `__create_table` call or an `__insert_tx` call with a fetched batch. -/
inductive IngestOp where
  | createTable : IngestOp
  | appendBatch : List RawRow → IngestOp

/-- Applies one ingestion operation to the (possibly still absent) table
of one series.  For `__insert_tx` on an absent table the source reads the
watermark through the caught SELECT failure (`None`, coerced to 0), still
builds the INSERT statements (so a malformed row still raises, `none`),
and every INSERT then fails on the missing table and is swallowed, so the
table stays absent. -/
def apply_op (t : Option Table) : IngestOp → Option (Option Table)
  | .createTable => some (some (create_table t))
  | .appendBatch data =>
    match t with
    | none =>
      (build_sql_tx (data.filter fun r => (0 : Int) < r.unix_ms)).map
        fun _ => none
    | some tb =>
      (insert_tx tb.rows data).map fun rows2 => some { tb with rows := rows2 }

def run_ops_from (t : Option Table) : List IngestOp → Option (Option Table)
  | [] => some t
  | op :: ops =>
    match apply_op t op with
    | none => none
    | some t2 => run_ops_from t2 ops

/-- A whole sequence of ingestion operations on one series, starting with
no table.  `none` means some operation raised. -/
def run_ops (ops : List IngestOp) : Option (Option Table) :=
  run_ops_from none ops

/-- The invariant of every reachable series table: the columns are the
ones fixed by `__create_table` and the stored timestamps are pairwise
distinct. -/
def table_inv (t : Option Table) : Prop :=
  ∀ tb, t = some tb →
    tb.columns = ohlcv_columns ∧ (tb.rows.map Row.unix_ms).Nodup

theorem apply_op_inv (t t2 : Option Table) (op : IngestOp)
    (hinv : table_inv t) (h : apply_op t op = some t2) : table_inv t2 := by
  cases op with
  | createTable =>
    cases h
    cases t with
    | none =>
      intro tb htb
      cases htb
      exact ⟨rfl, List.nodup_nil⟩
    | some tb0 =>
      intro tb htb
      cases htb
      exact hinv tb0 rfl
  | appendBatch data =>
    cases t with
    | none =>
      rw [apply_op] at h
      cases hb : build_sql_tx (data.filter fun r => (0 : Int) < r.unix_ms) with
      | none => rw [hb] at h; cases h
      | some parsed =>
        rw [hb] at h
        cases h
        intro tb htb
        cases htb
    | some tb0 =>
      rw [apply_op] at h
      cases hi : insert_tx tb0.rows data with
      | none => rw [hi] at h; cases h
      | some rows2 =>
        rw [hi] at h
        cases h
        intro tb htb
        cases htb
        exact ⟨(hinv tb0 rfl).1,
          insert_tx_nodup tb0.rows rows2 data (hinv tb0 rfl).2 hi⟩

theorem run_ops_from_inv :
    ∀ (ops : List IngestOp) (t t2 : Option Table), table_inv t →
      run_ops_from t ops = some t2 → table_inv t2 := by
  intro ops
  induction ops with
  | nil =>
    intro t t2 hinv h
    cases h
    exact hinv
  | cons op rest ih =>
    intro t t2 hinv h
    rw [run_ops_from] at h
    cases ha : apply_op t op with
    | none => rw [ha] at h; cases h
    | some mid =>
      rw [ha] at h
      exact ih mid t2 (apply_op_inv t mid op hinv ha) h

/-- C4: for every sequence of ingestion operations on one series
(create-table and append-batch calls, including batches that repeat a
timestamp), the stored timestamps of the series stay pairwise distinct:
the watermark filter keeps out timestamps at or below the stored maximum,
and an in-batch repeat hits the PRIMARY KEY constraint, whose failure
`__insert_tx` swallows without storing the row. -/
theorem c4_timestamps_distinct (ops : List IngestOp) (tb : Table)
    (h : run_ops ops = some (some tb)) :
    (tb.rows.map Row.unix_ms).Nodup :=
  (run_ops_from_inv ops none (some tb) (fun _ htb => by cases htb) h tb rfl).2

/-- Witness for C4: create the table, then append a batch containing the
timestamp 1000 twice; the run succeeds, stores the first of the two
records, and the stored timestamps are pairwise distinct. -/
def c4_ops : List IngestOp :=
  [IngestOp.createTable,
   IngestOp.appendBatch [⟨1000, 1, 1, 1, 1, [7]⟩, ⟨1000, 2, 2, 2, 2, [8]⟩]]

def c4_table : Table := ⟨ohlcv_columns, [⟨1000, 1, 1, 1, 1, 7⟩]⟩

theorem c4_witness : (c4_table.rows.map Row.unix_ms).Nodup :=
  c4_timestamps_distinct c4_ops c4_table (by decide)

/-- C10: the consistency checker reads the column `unix_close` while the
aggregator stores timestamps under `unix_ms_close`, so on every series
table reachable by aggregator ingestion operations the checker's
timestamp read takes its error branch and returns the error value `None`
instead of the stored ascending timestamps, and the whole per-table check
produces no per-row gap anomaly over the stored data (it dies with a
TypeError on `None` before emitting anything, `none`). -/
theorem c10_column_mismatch (ops : List IngestOp) (tb : Table)
    (period_ms : Int) (h : run_ops ops = some (some tb)) :
    get_all_unix_ms tb = none ∧ check_table tb period_ms = none := by
  have hcols : tb.columns = ohlcv_columns :=
    (run_ops_from_inv ops none (some tb) (fun _ htb => by cases htb) h tb rfl).1
  have hget : get_all_unix_ms tb = none := by
    rw [get_all_unix_ms, hcols, if_neg (by decide)]
  exact ⟨hget, by rw [check_table, hget]⟩

/-- Witness for C10 at the C4 run: the checker read on the resulting
table errors out and the per-table check reports nothing. -/
theorem c10_witness :
    get_all_unix_ms c4_table = none ∧ check_table c4_table 60000 = none :=
  c10_column_mismatch c4_ops c4_table 60000 (by decide)

/-- Lookup of a table by name in the SQLite database, modelled as an
association list from table name to table. -/
def lookup_table : List (String × Table) → String → Option Table
  | [], _ => none
  | (n, t) :: rest, name => if n = name then some t else lookup_table rest name

/-- The watermark operation at database level: `__get_latest_unix_ms`
(whose SELECT on an absent table raises, is caught, and yields `None`)
composed with the `if not latest_unix_ms: latest_unix_ms = 0` coercion of
`__insert_tx`. -/
def store_watermark (s : List (String × Table)) (name : String) : Int :=
  match lookup_table s name with
  | none => 0
  | some t => watermark t.rows

/-- C7: for every database and series name, the watermark operation never
fails and returns 0 when the series is absent or empty, and on a nonempty
series it returns the maximum stored timestamp (it is an upper bound of
all stored timestamps and is itself one of them). -/
theorem c7_watermark_max_or_zero (s : List (String × Table)) (name : String) :
    (lookup_table s name = none → store_watermark s name = 0) ∧
    (∀ t, lookup_table s name = some t →
      (t.rows = [] → store_watermark s name = 0) ∧
      (∀ r ∈ t.rows, r.unix_ms ≤ store_watermark s name) ∧
      (t.rows ≠ [] → store_watermark s name ∈ t.rows.map Row.unix_ms)) := by
  constructor
  · intro h
    rw [store_watermark, h]
  · intro t ht
    refine ⟨?_, ?_, ?_⟩
    · intro hrows
      rw [store_watermark, ht]
      show watermark t.rows = 0
      rw [hrows]
      rfl
    · intro r hr
      rw [store_watermark, ht]
      exact ts_le_watermark t.rows r hr
    · intro hne
      rw [store_watermark, ht]
      exact watermark_mem t.rows hne

/-- Witness for C7: a database with one populated table; the watermark of
an absent series is 0, the watermark of an empty series is 0, and the
watermark of the populated series is among its stored timestamps. -/
def c7_table : Table := ⟨ohlcv_columns, [⟨500, 0, 0, 0, 0, 1⟩, ⟨1000, 0, 0, 0, 0, 1⟩]⟩

def c7_empty_table : Table := ⟨ohlcv_columns, []⟩

def c7_store : List (String × Table) :=
  [("BTC_USD_hitbtc", c7_table), ("ETH_USD_hitbtc", c7_empty_table)]

theorem c7_witness :
    store_watermark c7_store "absent" = 0 ∧
    store_watermark c7_store "ETH_USD_hitbtc" = 0 ∧
    store_watermark c7_store "BTC_USD_hitbtc" ∈ c7_table.rows.map Row.unix_ms :=
  ⟨(c7_watermark_max_or_zero c7_store "absent").1 (by decide),
   (((c7_watermark_max_or_zero c7_store "ETH_USD_hitbtc").2 c7_empty_table
      (by decide)).1 rfl),
   (((c7_watermark_max_or_zero c7_store "BTC_USD_hitbtc").2 c7_table
      (by decide)).2.2 (by decide))⟩

/-- The ccxt exception classes that the per-pair loop of `update_ohlcv`
catches, plus `unclassified` for any exception of a type not named in an
except clause (which therefore propagates). -/
inductive FetchError where
  | notSupported : FetchError
  | authenticationError : FetchError
  | ddosProtection : FetchError
  | requestTimeout : FetchError
  | exchangeNotAvailable : FetchError
  | exchangeError : FetchError
  | unclassified : FetchError
deriving DecidableEq

/-- Whether the error class has an except clause in the per-pair loop of
`update_ohlcv`. -/
def handled_error : FetchError → Bool
  | .notSupported => true
  | .authenticationError => true
  | .ddosProtection => true
  | .requestTimeout => true
  | .exchangeNotAvailable => true
  | .exchangeError => true
  | .unclassified => false

/-- Outcome of one `fetch_ohlcv` call of the source adapter. -/
inductive FetchResult where
  | ok : List RawRow → FetchResult
  | err : FetchError → FetchResult
deriving DecidableEq

/-- The external source adapter as `update_ohlcv` consumes it:
`load_markets` (with `none` for the caught per-exchange failure) and
`fetch_ohlcv` per (exchange, pair). -/
structure Adapter where
  load_markets : String → Option (List String)
  fetch_ohlcv : String → String → FetchResult

/-- Character substitution used by `__create_table_name`: replaces every
occurrence of the unsafe character with an underscore. -/
def sanitize (bad : Char) (s : String) : String :=
  ⟨s.data.map fun c => if c = bad then '_' else c⟩

/-- Embeds `__create_table_name`: hyphens in the exchange name and the
slash in the pair name become underscores, giving pair_exchange. -/
def create_table_name (exchange_name pair_name : String) : String :=
  sanitize '/' pair_name ++ "_" ++ sanitize '-' exchange_name

/-- Table creation as `update_ohlcv` performs it for an unseen pair:
CREATE TABLE IF NOT EXISTS, returning the database and the table now
known to exist under the name. -/
def ensure_table (s : List (String × Table)) (name : String) :
    List (String × Table) × Table :=
  match lookup_table s name with
  | some t => (s, t)
  | none => (s ++ [(name, ⟨ohlcv_columns, []⟩)], ⟨ohlcv_columns, []⟩)

/-- Replaces the rows of the named table, modelling the committed INSERT
transaction of `__insert_tx` at database level. -/
def update_table : List (String × Table) → String → List Row → List (String × Table)
  | [], _, _ => []
  | (n, t) :: rest, name, rows =>
    if n = name then (n, { t with rows := rows }) :: rest
    else (n, t) :: update_table rest name rows

/-- One iteration of the per-pair loop of `update_ohlcv`: fetch, then on
success create the table if needed and run `__insert_tx`.  The Bool is
true when an exception escapes the iteration (a fetch failure of a class
with no except clause, or a raise out of `__insert_tx`), which aborts the
whole run. -/
def process_pair (a : Adapter) (s : List (String × Table))
    (exchange_name pair : String) : List (String × Table) × Bool :=
  match a.fetch_ohlcv exchange_name pair with
  | .err e => (s, !handled_error e)
  | .ok data =>
    let name := create_table_name exchange_name pair
    let st := ensure_table s name
    match insert_tx st.2.rows data with
    | none => (st.1, true)
    | some rows2 => (update_table st.1 name rows2, false)

/-- The per-pair loop of `update_ohlcv` for one exchange: `processed`
accumulates the (exchange, pair) iterations that ran to completion; an
escaped exception stops everything and reports true. -/
def run_pairs (a : Adapter) (exchange_name : String) :
    List (String × Table) → List (String × String) → List String →
    List (String × Table) × List (String × String) × Bool
  | s, processed, [] => (s, processed, false)
  | s, processed, pair :: rest =>
    let r := process_pair a s exchange_name pair
    if r.2 then (r.1, processed, true)
    else run_pairs a exchange_name r.1 (processed ++ [(exchange_name, pair)]) rest

/-- The exchange loop of `update_ohlcv`: a `load_markets` failure is
caught and skips the exchange; an empty whitelist entry falls back to all
market pairs; an exception escaping the pair loop propagates out of the
whole run. -/
def run_exchanges (a : Adapter) :
    List (String × Table) → List (String × String) →
    List (String × List String) →
    List (String × Table) × List (String × String) × Bool
  | s, processed, [] => (s, processed, false)
  | s, processed, (exchange_name, wl_pairs) :: rest =>
    match a.load_markets exchange_name with
    | none => run_exchanges a s processed rest
    | some markets =>
      let pairs := if wl_pairs.isEmpty then markets else wl_pairs
      let r := run_pairs a exchange_name s processed pairs
      if r.2.2 then r
      else run_exchanges a r.1 r.2.1 rest

/-- Embeds `update_ohlcv`: iterate the whitelist over the database,
returning the final database, the pair iterations that ran to completion,
and whether an exception escaped the run. -/
def update_ohlcv (a : Adapter) (wl : List (String × List String))
    (s : List (String × Table)) :
    List (String × Table) × List (String × String) × Bool :=
  run_exchanges a s [] wl

/-- C9, counterexample: the claim quantifies over every possible failure
of a single pair, but the per-pair loop only catches the six named ccxt
classes.  With a whitelist listing pairs A then B on one exchange, a fetch
failure on A of an unlisted exception class escapes the loop: the run
aborts and B, later in the whitelist, is never processed in that run. -/
def c9_adapter : Adapter where
  load_markets := fun _ => some []
  fetch_ohlcv := fun _ pair =>
    if pair = "A" then FetchResult.err FetchError.unclassified
    else FetchResult.ok []

theorem c9_counterexample :
    (update_ohlcv c9_adapter [("E", ["A", "B"])] []).2.2 = true ∧
    ("E", "B") ∉ (update_ohlcv c9_adapter [("E", ["A", "B"])] []).2.1 := by
  decide

/-- A fetch outcome the per-pair loop survives: either a failure of one of
the six handled ccxt classes, or a successful fetch whose rows are
well-formed (each carries at least one volume field, so `__insert_tx`
cannot raise). -/
def benign_result : FetchResult → Prop
  | .err e => handled_error e = true
  | .ok data => ∀ r ∈ data, r.volumes ≠ []

theorem insert_tx_total (rows : List Row) (data : List RawRow)
    (hvol : ∀ r ∈ data, r.volumes ≠ []) :
    ∃ rows2, insert_tx rows data = some rows2 := by
  obtain ⟨parsed, hb, -⟩ :=
    build_sql_tx_total (data.filter fun r => watermark rows < r.unix_ms)
      (fun r hr => hvol r (List.mem_filter.mp hr).1)
  exact ⟨parsed.foldl execute_insert rows, by rw [insert_tx, hb]⟩

theorem process_pair_benign (a : Adapter) (s : List (String × Table))
    (exchange_name pair : String)
    (h : benign_result (a.fetch_ohlcv exchange_name pair)) :
    (process_pair a s exchange_name pair).2 = false := by
  rw [process_pair]
  cases hf : a.fetch_ohlcv exchange_name pair with
  | err e =>
    rw [hf] at h
    simp only [benign_result] at h
    simp [h]
  | ok data =>
    rw [hf] at h
    simp only [benign_result] at h
    obtain ⟨rows2, hi⟩ :=
      insert_tx_total
        (ensure_table s (create_table_name exchange_name pair)).2.rows data h
    simp [hi]

theorem run_pairs_benign (a : Adapter) (exchange_name : String)
    (hben : ∀ pair, benign_result (a.fetch_ohlcv exchange_name pair)) :
    ∀ (pairs : List String) (s : List (String × Table))
      (processed : List (String × String)),
      (run_pairs a exchange_name s processed pairs).2.1 =
        processed ++ pairs.map (fun p => (exchange_name, p)) ∧
      (run_pairs a exchange_name s processed pairs).2.2 = false := by
  intro pairs
  induction pairs with
  | nil => intro s processed; simp [run_pairs]
  | cons p ps ih =>
    intro s processed
    have hab := process_pair_benign a s exchange_name p (hben p)
    obtain ⟨h1, h2⟩ :=
      ih (process_pair a s exchange_name p).1 (processed ++ [(exchange_name, p)])
    simp only [run_pairs, hab, Bool.false_eq_true, if_false, List.map_cons]
    rw [h1, h2, List.append_assoc, List.singleton_append]
    exact ⟨rfl, rfl⟩

/-- Pairs the run will iterate, per whitelist entry: none if the exchange
markets fail to load, otherwise the whitelisted pairs or, for an empty
whitelist entry, every market pair of the exchange. -/
def expanded_pairs (a : Adapter) : List (String × List String) → List (String × String)
  | [] => []
  | (exchange_name, wl_pairs) :: rest =>
    (match a.load_markets exchange_name with
     | none => []
     | some markets =>
       (if wl_pairs.isEmpty then markets else wl_pairs).map
         fun p => (exchange_name, p)) ++ expanded_pairs a rest

theorem run_exchanges_benign (a : Adapter)
    (hben : ∀ exchange_name pair, benign_result (a.fetch_ohlcv exchange_name pair)) :
    ∀ (wl : List (String × List String)) (s : List (String × Table))
      (processed : List (String × String)),
      (run_exchanges a s processed wl).2.1 = processed ++ expanded_pairs a wl ∧
      (run_exchanges a s processed wl).2.2 = false := by
  intro wl
  induction wl with
  | nil => intro s processed; simp [run_exchanges, expanded_pairs]
  | cons ep rest ih =>
    intro s processed
    obtain ⟨exchange_name, wl_pairs⟩ := ep
    cases hm : a.load_markets exchange_name with
    | none =>
      obtain ⟨h1, h2⟩ := ih s processed
      simp only [run_exchanges, hm, expanded_pairs, List.nil_append]
      exact ⟨h1, h2⟩
    | some markets =>
      obtain ⟨hp1, hp2⟩ :=
        run_pairs_benign a exchange_name (hben exchange_name)
          (if wl_pairs.isEmpty then markets else wl_pairs) s processed
      obtain ⟨h1, h2⟩ :=
        ih (run_pairs a exchange_name s processed
             (if wl_pairs.isEmpty then markets else wl_pairs)).1
           (run_pairs a exchange_name s processed
             (if wl_pairs.isEmpty then markets else wl_pairs)).2.1
      rw [hp1] at h1 h2
      simp only [run_exchanges, hm, hp2, Bool.false_eq_true, if_false,
        expanded_pairs]
      rw [hp1]
      exact ⟨h1.trans (List.append_assoc processed _ _), h2⟩

/-- Records already durably applied are unaffected: `s2` extends `s` when
every table of `s` is still present in `s2` under its name with the same
columns and with its old rows an unchanged prefix of its rows (the run
only ever appends rows to a table or adds new tables). -/
def store_extends (s s2 : List (String × Table)) : Prop :=
  ∀ name t, lookup_table s name = some t →
    ∃ ext, lookup_table s2 name = some ⟨t.columns, t.rows ++ ext⟩

theorem store_extends_refl (s : List (String × Table)) : store_extends s s := by
  intro name t ht
  refine ⟨[], ?_⟩
  rw [List.append_nil, ht]

theorem store_extends_trans (s1 s2 s3 : List (String × Table))
    (h12 : store_extends s1 s2) (h23 : store_extends s2 s3) :
    store_extends s1 s3 := by
  intro name t ht
  obtain ⟨e1, h1⟩ := h12 name t ht
  obtain ⟨e2, h2⟩ := h23 name ⟨t.columns, t.rows ++ e1⟩ h1
  refine ⟨e1 ++ e2, ?_⟩
  rw [← List.append_assoc]
  exact h2

theorem lookup_table_append_of_some (s rest : List (String × Table))
    (name : String) (t : Table) (h : lookup_table s name = some t) :
    lookup_table (s ++ rest) name = some t := by
  induction s with
  | nil => cases h
  | cons p s2 ih =>
    obtain ⟨m, u⟩ := p
    rw [lookup_table] at h
    rw [List.cons_append, lookup_table]
    by_cases hm : m = name
    · rw [if_pos hm] at h ⊢
      exact h
    · rw [if_neg hm] at h ⊢
      exact ih h

theorem lookup_table_append_of_none (s rest : List (String × Table))
    (name : String) (h : lookup_table s name = none) :
    lookup_table (s ++ rest) name = lookup_table rest name := by
  induction s with
  | nil => rfl
  | cons p s2 ih =>
    obtain ⟨m, u⟩ := p
    rw [lookup_table] at h
    rw [List.cons_append, lookup_table]
    by_cases hm : m = name
    · rw [if_pos hm] at h
      cases h
    · rw [if_neg hm] at h ⊢
      exact ih h

theorem lookup_ensure_self (s : List (String × Table)) (name : String) :
    lookup_table (ensure_table s name).1 name = some (ensure_table s name).2 := by
  cases hl : lookup_table s name with
  | some t =>
    rw [ensure_table, hl]
    exact hl
  | none =>
    rw [ensure_table, hl]
    show lookup_table (s ++ [(name, ⟨ohlcv_columns, []⟩)]) name =
      some ⟨ohlcv_columns, []⟩
    rw [lookup_table_append_of_none s _ name hl, lookup_table, if_pos rfl]

theorem store_extends_ensure (s : List (String × Table)) (name : String) :
    store_extends s (ensure_table s name).1 := by
  intro n t ht
  cases hl : lookup_table s name with
  | some t0 =>
    rw [ensure_table, hl]
    refine ⟨[], ?_⟩
    show lookup_table s n = some ⟨t.columns, t.rows ++ []⟩
    rw [List.append_nil, ht]
  | none =>
    rw [ensure_table, hl]
    refine ⟨[], ?_⟩
    show lookup_table (s ++ [(name, ⟨ohlcv_columns, []⟩)]) n =
      some ⟨t.columns, t.rows ++ []⟩
    rw [List.append_nil]
    exact lookup_table_append_of_some s _ n t ht

theorem store_extends_update :
    ∀ (s : List (String × Table)) (name : String) (tb : Table) (new : List Row),
      lookup_table s name = some tb →
      store_extends s (update_table s name (tb.rows ++ new)) := by
  intro s
  induction s with
  | nil =>
    intro name tb new htb
    cases htb
  | cons p s2 ih =>
    obtain ⟨m, u⟩ := p
    intro name tb new htb n t ht
    rw [lookup_table] at htb ht
    rw [update_table]
    by_cases hm : m = name
    · rw [if_pos hm] at htb ⊢
      cases htb
      by_cases hn : m = n
      · rw [if_pos hn] at ht
        cases ht
        refine ⟨new, ?_⟩
        rw [lookup_table, if_pos hn]
      · rw [if_neg hn] at ht
        refine ⟨[], ?_⟩
        rw [lookup_table, if_neg hn, List.append_nil, ht]
    · rw [if_neg hm] at htb ⊢
      by_cases hn : m = n
      · rw [if_pos hn] at ht
        cases ht
        refine ⟨[], ?_⟩
        rw [lookup_table, if_pos hn, List.append_nil]
      · rw [if_neg hn] at ht
        rw [lookup_table, if_neg hn]
        exact ih name tb new htb n t ht

theorem store_extends_process_pair (a : Adapter) (s : List (String × Table))
    (exchange_name pair : String) :
    store_extends s (process_pair a s exchange_name pair).1 := by
  cases hf : a.fetch_ohlcv exchange_name pair with
  | err e =>
    rw [process_pair, hf]
    exact store_extends_refl s
  | ok data =>
    simp only [process_pair, hf]
    cases hi : insert_tx
        (ensure_table s (create_table_name exchange_name pair)).2.rows data with
    | none =>
      simp only [hi]
      exact store_extends_ensure s (create_table_name exchange_name pair)
    | some rows2 =>
      simp only [hi]
      obtain ⟨new, happ, -, -⟩ :=
        insert_tx_decomp
          (ensure_table s (create_table_name exchange_name pair)).2.rows
          data rows2 hi
      rw [happ]
      exact store_extends_trans _ _ _
        (store_extends_ensure s (create_table_name exchange_name pair))
        (store_extends_update
          (ensure_table s (create_table_name exchange_name pair)).1
          (create_table_name exchange_name pair)
          (ensure_table s (create_table_name exchange_name pair)).2 new
          (lookup_ensure_self s (create_table_name exchange_name pair)))

theorem store_extends_run_pairs (a : Adapter) (exchange_name : String) :
    ∀ (pairs : List String) (s : List (String × Table))
      (processed : List (String × String)),
      store_extends s (run_pairs a exchange_name s processed pairs).1 := by
  intro pairs
  induction pairs with
  | nil =>
    intro s processed
    exact store_extends_refl s
  | cons p ps ih =>
    intro s processed
    cases hr : (process_pair a s exchange_name p).2 with
    | true =>
      simp [run_pairs, hr]
      exact store_extends_process_pair a s exchange_name p
    | false =>
      simp [run_pairs, hr]
      exact store_extends_trans _ _ _
        (store_extends_process_pair a s exchange_name p)
        (ih (process_pair a s exchange_name p).1 (processed ++ [(exchange_name, p)]))

theorem store_extends_run_exchanges (a : Adapter) :
    ∀ (wl : List (String × List String)) (s : List (String × Table))
      (processed : List (String × String)),
      store_extends s (run_exchanges a s processed wl).1 := by
  intro wl
  induction wl with
  | nil =>
    intro s processed
    exact store_extends_refl s
  | cons ep rest ih =>
    intro s processed
    obtain ⟨exchange_name, wl_pairs⟩ := ep
    cases hm : a.load_markets exchange_name with
    | none =>
      simp only [run_exchanges, hm]
      exact ih s processed
    | some markets =>
      cases hr : (run_pairs a exchange_name s processed
          (if wl_pairs.isEmpty then markets else wl_pairs)).2.2 with
      | true =>
        simp only [run_exchanges, hm, hr]
        rw [if_pos trivial]
        exact store_extends_run_pairs a exchange_name _ s processed
      | false =>
        simp only [run_exchanges, hm, hr, Bool.false_eq_true, if_false]
        exact store_extends_trans _ _ _
          (store_extends_run_pairs a exchange_name _ s processed)
          (ih (run_pairs a exchange_name s processed
                (if wl_pairs.isEmpty then markets else wl_pairs)).1
              (run_pairs a exchange_name s processed
                (if wl_pairs.isEmpty then markets else wl_pairs)).2.1)

/-- C9 (amended): failures of the error classes the per-pair loop
handles (NotSupported, AuthenticationError, DDoSProtection,
RequestTimeout, ExchangeNotAvailable, ExchangeError), with fetched rows
well-formed, never propagate past the per-pair boundary: for every
whitelist and store, the run completes without an escaped exception and
every pair the whitelist expands to is processed in that same run, and
records already durably applied are unaffected: every table present
before the run is still present under its name with the same columns and
its old rows an unchanged prefix of its final rows (`store_extends`).  A
failure of an unlisted exception class, however, escapes and aborts the
rest of the run, as the counterexample shows. -/
theorem c9_amended_handled_failures_isolated (a : Adapter)
    (wl : List (String × List String)) (s : List (String × Table))
    (hben : ∀ exchange_name pair,
      benign_result (a.fetch_ohlcv exchange_name pair)) :
    (update_ohlcv a wl s).2.2 = false ∧
    (update_ohlcv a wl s).2.1 = expanded_pairs a wl ∧
    store_extends s (update_ohlcv a wl s).1 := by
  obtain ⟨h1, h2⟩ := run_exchanges_benign a hben wl s []
  refine ⟨h2, ?_, store_extends_run_exchanges a wl s []⟩
  show (run_exchanges a s [] wl).2.1 = expanded_pairs a wl
  rw [h1, List.nil_append]

/-- Witness for the amended C9, mirroring the spec scenario: a handled
transient failure (RequestTimeout) on pair A does not prevent pair B,
later in the whitelist, from being processed in the same run, and the
record already durably applied to table T before the run is still stored
there afterwards. -/
def c9_benign_adapter : Adapter where
  load_markets := fun _ => some []
  fetch_ohlcv := fun _ pair =>
    if pair = "A" then FetchResult.err FetchError.requestTimeout
    else FetchResult.ok []

def c9_rows0 : List Row := [⟨500, 0, 0, 0, 0, 1⟩]

def c9_store0 : List (String × Table) := [("T", ⟨ohlcv_columns, c9_rows0⟩)]

theorem c9_amended_witness :
    (update_ohlcv c9_benign_adapter [("E", ["A", "B"])] c9_store0).2.2 = false ∧
    (update_ohlcv c9_benign_adapter [("E", ["A", "B"])] c9_store0).2.1 =
      [("E", "A"), ("E", "B")] ∧
    (∃ ext, lookup_table
        (update_ohlcv c9_benign_adapter [("E", ["A", "B"])] c9_store0).1 "T" =
      some ⟨ohlcv_columns, c9_rows0 ++ ext⟩) := by
  have hben : ∀ exchange_name pair,
      benign_result (c9_benign_adapter.fetch_ohlcv exchange_name pair) := by
    intro exchange_name pair
    by_cases hp : pair = "A" <;>
      simp [c9_benign_adapter, benign_result, hp, handled_error]
  obtain ⟨h1, h2, h3⟩ :=
    c9_amended_handled_failures_isolated c9_benign_adapter
      [("E", ["A", "B"])] c9_store0 hben
  refine ⟨h1, h2.trans (by decide), ?_⟩
  obtain ⟨ext, hext⟩ := h3 "T" ⟨ohlcv_columns, c9_rows0⟩ (by decide)
  exact ⟨ext, hext⟩
